import Mathlib

/-!
# Verification of the `ts-order` ordering toolkit

Shallow embedding of `src/order.ts` (the `Order` step-list builder, its derived
comparator and its decorate-sort-undecorate bulk sort) and of the standalone
comparator combinators in `src/comparator/index.ts`.

Modelling conventions:
* Elements live in a type `T`; step keys (TypeScript `unknown`) live in a type
  `K` equipped with a boolean relation `klt : K → K → Bool` modelling the
  JavaScript abstract relational comparison `<`.  In JavaScript `x > y` is
  evaluated as `y < x`, so the source expression `x > y` is embedded as `klt y x`.
* JavaScript numbers returned by comparator callbacks are modelled as `Int`:
  the source only inspects `r !== 0` and `r > 0`, which `Int` captures.
* The platform `Array.prototype.sort` (stable, per the ECMAScript spec) is
  modelled by a stable insertion sort `sortCmp` over the comparator.
* Array identity (mutation / aliasing questions) is modelled by a small heap
  of arrays, `HeapA`; in the source, `Order.sort` only reads its input
  (`array[i]`, `array.length`, `array.slice()`) and every write targets a
  buffer freshly allocated inside the call (`new Array`, `slice`), so at array
  granularity the call reads one reference and allocates the result.
-/

/-- Model of `Direction` from `src/types.ts` (the string union of asc and
desc); it also stands for the internal `DirectionSign` type `1 | -1`, whose
two values are exactly the image of `directionSignByDirection`. -/
inductive Direction where
  | asc : Direction
  | desc : Direction
deriving DecidableEq, Repr

/-- The numeric direction sign: `directionSignByDirection = {asc: 1, desc: -1}`. -/
def Direction.sign : Direction → Int
  | .asc => 1
  | .desc => -1

/-- Model of `OrderStep<T>` from `src/order.ts`: key extractor, direction sign,
optional custom comparator over keys, optional guarding predicate. -/
structure OrderStep (T K : Type) where
  key : T → K
  direction : Direction
  compare : Option (K → K → Int)
  predicate : Option (T → Bool)

/-- Model of `Order<T>`: an immutable ordered list of steps (`_steps`). -/
structure Order (T K : Type) where
  steps : List (OrderStep T K)

variable {T N K U : Type}

/-- Static `Order.by(selectorFn, options?)`: a one-step Order.  Default
direction is `asc`; `compare` and `predicate` are taken from the options. -/
def Order.byKey (key : T → K) (direction : Direction)
    (compare : Option (K → K → Int))
    (predicate : Option (T → Bool)) : Order T K :=
  ⟨[{ key := key, direction := direction, compare := compare, predicate := predicate }]⟩

/-- Instance `order.by(selectorFn, options?)`: appends one step to the
steps of the receiver in a new Order. -/
def Order.byKeyI (o : Order T K) (key : T → K) (direction : Direction)
    (compare : Option (K → K → Int))
    (predicate : Option (T → Bool)) : Order T K :=
  ⟨o.steps ++ [{ key := key, direction := direction, compare := compare, predicate := predicate }]⟩

/-- Flip of the direction of one step, as written in `Order.reverse`:
`direction: s.direction === 1 ? -1 : 1`, other fields copied unchanged. -/
def flipStep (s : OrderStep T K) : OrderStep T K :=
  { key := s.key
    direction := if s.direction.sign = 1 then Direction.desc else Direction.asc
    compare := s.compare
    predicate := s.predicate }

/-- Static `Order.reverse(input)`: empty stays empty, otherwise the direction
sign of every step is flipped and key/compare/predicate are kept. -/
def Order.reverse (input : Order T K) : Order T K :=
  if input.steps.length = 0 then ⟨[]⟩
  else ⟨input.steps.map flipStep⟩

/-- Static `Order.map(outer, sub)`: the key of each sub-step is precomposed with
`outer`; a present predicate is precomposed with `outer`, an absent one stays
absent.  An empty sub-Order maps to the empty Order.  `N` is the nested
element type of the sub-Order. -/
def Order.map (outer : T → N) (sub : Order N K) : Order T K :=
  if sub.steps.length = 0 then ⟨[]⟩
  else
    ⟨sub.steps.map (fun s =>
      { key := fun t => s.key (outer t)
        direction := s.direction
        compare := s.compare
        predicate := match s.predicate with
          | some p => some (fun t => p (outer t))
          | none => none })⟩

/-- Static `Order.when(predicate, input)`: the predicate of each step becomes the
conjunction `step.predicate(v) && predicate(v)` when a predicate exists on the
step, and `predicate` itself otherwise; empty input yields empty. -/
def Order.when (predicate : T → Bool) (input : Order T K) : Order T K :=
  if input.steps.length = 0 then ⟨[]⟩
  else
    ⟨input.steps.map (fun step =>
      { key := step.key
        direction := step.direction
        compare := step.compare
        predicate := match step.predicate with
          | some p => some (fun v => p v && predicate v)
          | none => some predicate })⟩

/-- Instance `order.map(outer, sub)`: the steps of the receiver followed by the
statically mapped sub-steps (source returns `Order.map(outer, sub)` directly
when the receiver is empty). -/
def Order.mapI (o : Order T K) (outer : T → N) (sub : Order N K) : Order T K :=
  if o.steps.length = 0 then Order.map outer sub
  else ⟨o.steps ++ (Order.map outer sub).steps⟩

/-- Instance `order.when(predicate, order)`: steps of the receiver first, then the
guarded steps; degenerate cases short-circuit as in the source. -/
def Order.whenI (o : Order T K) (predicate : T → Bool) (inner : Order T K) : Order T K :=
  let guarded := Order.when predicate inner
  if o.steps.length = 0 then guarded
  else if guarded.steps.length = 0 then ⟨o.steps⟩
  else ⟨o.steps ++ guarded.steps⟩

/-- The body of the `get compare` closure from `src/order.ts`, as a walk over
the remaining steps.  `klt` models the JavaScript `<` on keys; the source
expression `x > y` is `klt y x`.  The skip test mirrors
`if (p && (!p(a) || !p(b))) continue;`. -/
def compareSteps (klt : K → K → Bool) : List (OrderStep T K) → T → T → Int
  | [], _, _ => 0
  | s :: rest, a, b =>
    let skip : Bool := match s.predicate with
      | some p => !(p a) || !(p b)
      | none => false
    if skip then compareSteps klt rest a b
    else
      let x := s.key a
      let y := s.key b
      match s.compare with
      | some c =>
        let r := c x y
        if r ≠ 0 then (if r > 0 then s.direction.sign else -s.direction.sign)
        else compareSteps klt rest a b
      | none =>
        if klt x y then -s.direction.sign
        else if klt y x then s.direction.sign
        else compareSteps klt rest a b

/-- The `compare` getter: a constant-zero comparator when there are no steps,
otherwise the step walk `compareSteps`. -/
def Order.compareFn (klt : K → K → Bool) (o : Order T K) : T → T → Int :=
  if o.steps.length = 0 then fun _ _ => 0
  else fun a b => compareSteps klt o.steps a b

/-- Modelled from the spec, §4.2 (comparator derivation): walk the steps in
order; a step whose predicate is not satisfied by BOTH arguments is a tie;
with a custom comparator a non-zero result `r` is normalized to a unit sign
and multiplied by the direction; the default comparator returns `-direction`
on `x < y` and `direction` on `x > y`; if every step ties the result is 0.
Written from the words of the spec, to be compared with `compareSteps`. -/
def compareSpecWalk (klt : K → K → Bool) : List (OrderStep T K) → T → T → Int
  | [], _, _ => 0
  | s :: rest, a, b =>
    let applies : Bool := match s.predicate with
      | some p => p a && p b
      | none => true
    if applies then
      let x := s.key a
      let y := s.key b
      match s.compare with
      | some c =>
        if c x y = 0 then compareSpecWalk klt rest a b
        else Int.sign (c x y) * s.direction.sign
      | none =>
        if klt x y then -s.direction.sign
        else if klt y x then s.direction.sign
        else compareSpecWalk klt rest a b
    else compareSpecWalk klt rest a b

/-- Modelled from the spec, §4.2 rule 1 plus the step walk: the derived
comparator of an Order. -/
def Order.compareSpec (klt : K → K → Bool) (o : Order T K) : T → T → Int :=
  fun a b => compareSpecWalk klt o.steps a b

/-- Decoration of one step inside `Order.sort`: the precomputed keys buffer
(`none` models an unused slot left `undefined` when the predicate rejected the
element), the optional matches buffer, and the direction and comparator of the step
(the `dirs` / `cmps` arrays). -/
structure DecStep (K : Type) where
  keys : List (Option K)
  matched : Option (List Bool)
  dir : Direction
  cmp : Option (K → K → Int)

/-- The decoration loop of `Order.sort` for one step: with a predicate, record
matches and store a key only for matching elements; without one, store a key
for every element. -/
def decorateStep (s : OrderStep T K) (arr : List T) : DecStep K :=
  match s.predicate with
  | some p =>
    { keys := arr.map (fun t => if p t then some (s.key t) else none)
      matched := some (arr.map p)
      dir := s.direction
      cmp := s.compare }
  | none =>
    { keys := arr.map (fun t => some (s.key t))
      matched := none
      dir := s.direction
      cmp := s.compare }

/-- The index comparator passed to `arrayIndexes.sort`: replays the step walk
reading precomputed keys and matches.  Reading a slot that was never written
(`none`) falls through to the next step, exactly as the relational
comparisons of the source on `undefined` both fail; with matches present this case is
unreachable because the skip test fires first. -/
def idxCompare (klt : K → K → Bool) : List (DecStep K) → Nat → Nat → Int
  | [], _, _ => 0
  | d :: ds, ia, ib =>
    let skip : Bool := match d.matched with
      | some m => !(m.getD ia false) || !(m.getD ib false)
      | none => false
    if skip then idxCompare klt ds ia ib
    else
      match d.keys.getD ia none, d.keys.getD ib none with
      | some a, some b =>
        match d.cmp with
        | some c =>
          let r := c a b
          if r ≠ 0 then (if r > 0 then d.dir.sign else -d.dir.sign)
          else idxCompare klt ds ia ib
        | none =>
          if klt a b then -d.dir.sign
          else if klt b a then d.dir.sign
          else idxCompare klt ds ia ib
      | _, _ => idxCompare klt ds ia ib

/-- Stable insertion sort, the model of the platform `Array.prototype.sort`
with a comparator (the ECMAScript spec requires sort to be stable): an element
is inserted before the first element it does not compare greater than, so
equal elements keep their original relative order. -/
def insertCmp (cmp : α → α → Int) (x : α) : List α → List α
  | [] => [x]
  | y :: ys => if cmp x y ≤ 0 then x :: y :: ys else y :: insertCmp cmp x ys

/-- Stable sort by a comparator (model of the platform sort). -/
def sortCmp (cmp : α → α → Int) : List α → List α
  | [] => []
  | x :: xs => insertCmp cmp x (sortCmp cmp xs)

/-- Model of `Order.sort(array, order)` from `src/order.ts`: short-circuit copies for
length ≤ 1 or zero steps, otherwise decorate every step, sort the index array
`[0, …, n-1]` with the precomputed-key comparator, and materialize the output
by reading `array[index]` in sorted index order. -/
def Order.sortL [Inhabited T] (klt : K → K → Bool) (arr : List T) (o : Order T K) : List T :=
  if arr.length ≤ 1 then arr
  else if o.steps.length = 0 then arr
  else
    let decs := o.steps.map (fun s => decorateStep s arr)
    let sortedIdx := sortCmp (fun ia ib => idxCompare klt decs ia ib) (List.range arr.length)
    sortedIdx.map (fun i => arr.getD i default)

/-- Number of key-function invocations `Order.sort` performs.  Keys are
invoked only in the decoration loop — the index comparator reads buffers and
never calls `key` (it is not even passed the key functions) — and the loop
stores one key per invocation, so the count is the number of filled key slots;
the short-circuit paths decorate nothing. -/
def Order.sortKeyCalls (arr : List T) (o : Order T K) : Nat :=
  if arr.length ≤ 1 then 0
  else if o.steps.length = 0 then 0
  else ((o.steps.map (fun s => (decorateStep s arr).keys.countP Option.isSome)).sum)

/-- A heap of arrays, to express array identity and (non-)mutation: references
are indices into the list of allocated arrays. -/
structure HeapA (T : Type) where
  arrays : List (List T)

/-- Read the array behind a reference. -/
def HeapA.read (h : HeapA T) (r : Nat) : List T :=
  h.arrays.getD r []

/-- Allocate a fresh array; returns the new heap and the fresh reference. -/
def HeapA.alloc (h : HeapA T) (v : List T) : HeapA T × Nat :=
  (⟨h.arrays ++ [v]⟩, h.arrays.length)

/-- Model of `Order.sort` at array granularity: the source reads its input only
(`array[i]`, `array.length`, `array.slice()`); every write targets a buffer
allocated inside the call (`new Array(...)`, `slice()`), and each return path
returns such a fresh allocation (`array.slice()` or `out`).  So the call reads
the input reference, computes the pure result `sortL`, and allocates it. -/
def Order.sortH [Inhabited T] (klt : K → K → Bool) (h : HeapA T) (r : Nat)
    (o : Order T K) : HeapA T × Nat :=
  h.alloc (Order.sortL klt (h.read r) o)

/-- Model of `compare` from `src/comparator/index.ts`: the natural three-way comparator
via the relational operators (`a > b` is `klt b a` in JavaScript). -/
def compareStd (klt : K → K → Bool) : K → K → Int :=
  fun a b => if klt a b then -1 else if klt b a then 1 else 0

/-- Model of `reverse(compareFn)` from `src/comparator/index.ts`: swap the arguments. -/
def reverseC (f : T → T → Int) : T → T → Int :=
  fun a b => f b a

/-- Model of `by(key, options?)` from `src/comparator/index.ts`: project through `key`,
default comparator `compare`, descending via `reverse`, and a predicate
short-circuits to 0 unless both operands satisfy it.  The delegate
raw result of the delegate comparator is returned unchanged. -/
def byC (klt : K → K → Bool) (key : T → K) (direction : Direction)
    (compare : Option (K → K → Int))
    (predicate : Option (T → Bool)) : T → T → Int :=
  let compareFn := compare.getD (compareStd klt)
  let compareFnWithDirection :=
    if direction = Direction.asc then compareFn else reverseC compareFn
  match predicate with
  | none => fun a b => compareFnWithDirection (key a) (key b)
  | some p => fun a b =>
    if !(p a) || !(p b) then 0
    else compareFnWithDirection (key a) (key b)

/-- Model of `order(...comparators)` from `src/comparator/index.ts`: the first non-zero
result wins, returned unchanged; 0 if every comparator ties. -/
def orderC : List (T → T → Int) → T → T → Int
  | [], _, _ => 0
  | c :: rest, a, b =>
    let r := c a b
    if r ≠ 0 then r else orderC rest a b

/-- A JavaScript number as far as `number(a, b)` observes it: `NaN` or a
finite value (modelled as `Int`; the source only exposes the sign of `a - b`,
which the exact integer difference captures). -/
inductive JSNum where
  | nan : JSNum
  | fin : Int → JSNum
deriving DecidableEq, Repr

/-- Model of `Number.isNaN`. -/
def JSNum.isNaN : JSNum → Bool
  | .nan => true
  | .fin _ => false

/-- The finite value; only read on the non-NaN path of `number`. -/
def JSNum.val : JSNum → Int
  | .nan => 0
  | .fin v => v

/-- Model of `number(a, b)` from `src/comparator/index.ts`: NaN pairs are equal, a NaN
sorts before any other number, and otherwise the result is `a - b`. -/
def numberC (a b : JSNum) : Int :=
  let isANaN := a.isNaN
  let isBNaN := b.isNaN
  if isANaN && isBNaN then 0
  else if isANaN then -1
  else if isBNaN then 1
  else a.val - b.val

/-- The guard a step imposes, as a total boolean: its predicate, or constantly
true when it has none ("the step applies"). -/
def stepPred (s : OrderStep T K) : T → Bool :=
  match s.predicate with
  | some p => p
  | none => fun _ => true

/-- JavaScript `<` on integers, the concrete key relation used in examples. -/
def kltI : Int → Int → Bool := fun a b => decide (a < b)

/-- A concrete predicate: non-negative integers. -/
def pNonneg : Int → Bool := fun t => decide (0 ≤ t)

/-- A concrete one-step configuration: identity key guarded by `pNonneg`. -/
def stepNonneg : OrderStep Int Int :=
  { key := id, direction := .asc, compare := none, predicate := some pNonneg }

/-- A concrete one-step configuration whose predicate accepts everything. -/
def stepAlways : OrderStep Int Int :=
  { key := id, direction := .asc, compare := none, predicate := some (fun _ => true) }

/-- A one-step Order whose custom comparator constantly answers 1. -/
def ordConstOne : Order Int Int := Order.byKey id .asc (some (fun _ _ => 1)) none

/-- A one-step Order on integers by the identity key. -/
def ordIdInt : Order Int Int := Order.byKey (id : Int → Int) .asc none none

/-- A concrete one-array heap. -/
def heapW : HeapA Int := ⟨[[1, 2, 3]]⟩

section Lemmas

variable {α β : Type}

theorem getD_map_of_lt (f : α → β) (l : List α) (i : Nat) (d : β) (d' : α)
    (h : i < l.length) : (l.map f).getD i d = f (l.getD i d') := by
  induction l generalizing i with
  | nil => simp at h
  | cons a as ih =>
    cases i with
    | zero => simp
    | succ n =>
      simp only [List.map_cons, List.getD_cons_succ]
      exact ih n (by simpa using h)

theorem mem_insertCmp (cmp : α → α → Int) (x z : α) (l : List α) :
    z ∈ insertCmp cmp x l ↔ z = x ∨ z ∈ l := by
  induction l with
  | nil => simp [insertCmp]
  | cons y ys ih =>
    by_cases h : cmp x y ≤ 0 <;> simp [insertCmp, h, ih] <;> tauto

theorem mem_sortCmp (cmp : α → α → Int) (z : α) (l : List α) :
    z ∈ sortCmp cmp l ↔ z ∈ l := by
  induction l with
  | nil => simp [sortCmp]
  | cons x xs ih =>
    simp [sortCmp, mem_insertCmp, ih]

theorem insertCmp_map (f : α → β) (cmpI : α → α → Int) (cmpE : β → β → Int)
    (x : α) (l : List α) (h : ∀ y ∈ l, cmpI x y = cmpE (f x) (f y)) :
    (insertCmp cmpI x l).map f = insertCmp cmpE (f x) (l.map f) := by
  induction l with
  | nil => simp [insertCmp]
  | cons y ys ih =>
    have hy : cmpI x y = cmpE (f x) (f y) := h y (by simp)
    by_cases hc : cmpI x y ≤ 0
    · simp [insertCmp, hc, ← hy]
    · simp only [insertCmp, if_neg hc, List.map_cons, ← hy, if_neg hc]
      rw [ih (fun z hz => h z (by simp [hz]))]

theorem sortCmp_map (f : α → β) (cmpI : α → α → Int) (cmpE : β → β → Int)
    (l : List α) (h : ∀ x ∈ l, ∀ y ∈ l, cmpI x y = cmpE (f x) (f y)) :
    (sortCmp cmpI l).map f = sortCmp cmpE (l.map f) := by
  induction l with
  | nil => simp [sortCmp]
  | cons x xs ih =>
    simp only [sortCmp, List.map_cons]
    rw [insertCmp_map f cmpI cmpE x (sortCmp cmpI xs)
        (fun y hy => h x (by simp) y (by simp [(mem_sortCmp cmpI y xs).1 hy]))]
    rw [ih (fun a ha b hb => h a (by simp [ha]) b (by simp [hb]))]

theorem insertCmp_zero (cmp : α → α → Int) (x : α) (l : List α)
    (h : ∀ y, cmp x y = 0) : insertCmp cmp x l = x :: l := by
  cases l with
  | nil => rfl
  | cons y ys => simp [insertCmp, h]

theorem sortCmp_zero (cmp : α → α → Int) (l : List α)
    (h : ∀ x y, cmp x y = 0) : sortCmp cmp l = l := by
  induction l with
  | nil => rfl
  | cons x xs ih =>
    show insertCmp cmp x (sortCmp cmp xs) = x :: xs
    rw [ih, insertCmp_zero cmp x xs (fun y => h x y)]

theorem range_map_getD [Inhabited α] (arr : List α) :
    (List.range arr.length).map (fun i => arr.getD i default) = arr := by
  induction arr with
  | nil => simp
  | cons a as ih =>
    rw [List.length_cons, List.range_succ_eq_map, List.map_cons, List.map_map]
    rw [show ((fun i => (a :: as).getD i default) ∘ Nat.succ)
        = (fun i => as.getD i default) from funext (fun i => by simp [Function.comp])]
    rw [ih]
    simp

end Lemmas

theorem idxCompare_eq_compareSteps [Inhabited T] (klt : K → K → Bool)
    (steps : List (OrderStep T K)) (arr : List T) (ia ib : Nat)
    (ha : ia < arr.length) (hb : ib < arr.length) :
    idxCompare klt (steps.map (fun s => decorateStep s arr)) ia ib =
      compareSteps klt steps (arr.getD ia default) (arr.getD ib default) := by
  induction steps with
  | nil => rfl
  | cons s rest ih =>
    simp only [List.map_cons]
    cases hp : s.predicate with
    | some p =>
      have e1 : decorateStep s arr =
          { keys := arr.map (fun t => if p t then some (s.key t) else none)
            matched := some (arr.map p)
            dir := s.direction
            cmp := s.compare } := by
        simp [decorateStep, hp]
      rw [e1]
      simp only [idxCompare, compareSteps, hp]
      rw [getD_map_of_lt p arr ia false default ha,
        getD_map_of_lt p arr ib false default hb,
        getD_map_of_lt (fun t => if p t then some (s.key t) else none) arr ia none default ha,
        getD_map_of_lt (fun t => if p t then some (s.key t) else none) arr ib none default hb]
      by_cases hpa : p (arr.getD ia default) <;>
        by_cases hpb : p (arr.getD ib default) <;>
          simp only [hpa, hpb, Bool.not_true, Bool.not_false, Bool.false_or,
            Bool.or_true, Bool.true_or, Bool.or_false, if_true, if_false,
            Bool.false_eq_true, ih]
    | none =>
      have e1 : decorateStep s arr =
          { keys := arr.map (fun t => some (s.key t))
            matched := none
            dir := s.direction
            cmp := s.compare } := by
        simp [decorateStep, hp]
      rw [e1]
      simp only [idxCompare, compareSteps, hp]
      rw [getD_map_of_lt (fun t => some (s.key t)) arr ia none default ha,
        getD_map_of_lt (fun t => some (s.key t)) arr ib none default hb]
      simp only [Bool.false_eq_true, if_false, ih]

/-- C1: For every Order `o` over `T` and every input array `arr`,
`Order.sort(arr, o)` yields the same elements in the same final order as
copying `arr` and sorting the copy with the derived comparator `o.compare`
(the platform sort being stable), for arbitrary step counts, custom
comparators, and predicate combinations. -/
theorem sort_eq_stableSort_compare [Inhabited T] (klt : K → K → Bool)
    (o : Order T K) (arr : List T) :
    Order.sortL klt arr o = sortCmp (Order.compareFn klt o) arr := by
  match arr with
  | [] => simp [Order.sortL, sortCmp]
  | [a] => simp [Order.sortL, sortCmp, insertCmp]
  | a :: b :: rest =>
    by_cases hs : o.steps.length = 0
    · have hc : Order.compareFn klt o = fun _ _ => 0 := by
        simp [Order.compareFn, hs]
      rw [hc, sortCmp_zero _ _ (fun _ _ => rfl)]
      simp [Order.sortL, hs]
    · have hlen : ¬ (a :: b :: rest).length ≤ 1 := by
        simp only [List.length_cons]
        omega
      simp only [Order.sortL, if_neg hlen, if_neg hs]
      rw [sortCmp_map (fun i => (a :: b :: rest).getD i default)
          (fun ia ib =>
            idxCompare klt (o.steps.map (fun s => decorateStep s (a :: b :: rest))) ia ib)
          (Order.compareFn klt o) (List.range (a :: b :: rest).length)
          (fun i hi j hj => by
            rw [List.mem_range] at hi hj
            show idxCompare klt (o.steps.map (fun s => decorateStep s (a :: b :: rest))) i j
                = Order.compareFn klt o ((a :: b :: rest).getD i default)
                    ((a :: b :: rest).getD j default)
            rw [idxCompare_eq_compareSteps klt o.steps _ i j hi hj]
            simp [Order.compareFn, hs])]
      rw [range_map_getD]

theorem sign_mul_dir (r d : Int) (h : r ≠ 0) :
    Int.sign r * d = if r > 0 then d else -d := by
  rcases lt_trichotomy r 0 with h1 | h1 | h1
  · rw [Int.sign_eq_neg_one_of_neg h1, if_neg (by omega)]
    ring
  · exact absurd h1 h
  · rw [Int.sign_eq_one_of_pos h1, if_pos h1]
    ring

theorem compareSpecWalk_eq_compareSteps (klt : K → K → Bool)
    (steps : List (OrderStep T K)) (a b : T) :
    compareSpecWalk klt steps a b = compareSteps klt steps a b := by
  induction steps with
  | nil => rfl
  | cons s rest ih =>
    simp only [compareSpecWalk, compareSteps]
    have body :
        (match s.compare with
          | some c =>
            if c (s.key a) (s.key b) = 0 then compareSteps klt rest a b
            else Int.sign (c (s.key a) (s.key b)) * s.direction.sign
          | none =>
            if klt (s.key a) (s.key b) then -s.direction.sign
            else if klt (s.key b) (s.key a) then s.direction.sign
            else compareSteps klt rest a b) =
        (match s.compare with
          | some c =>
            if c (s.key a) (s.key b) ≠ 0 then
              (if c (s.key a) (s.key b) > 0 then s.direction.sign
               else -s.direction.sign)
            else compareSteps klt rest a b
          | none =>
            if klt (s.key a) (s.key b) then -s.direction.sign
            else if klt (s.key b) (s.key a) then s.direction.sign
            else compareSteps klt rest a b) := by
      cases hc : s.compare with
      | some c =>
        by_cases hr : c (s.key a) (s.key b) = 0
        · simp [hr]
        · simp [hr, sign_mul_dir _ _ hr]
      | none => rfl
    cases hp : s.predicate with
    | some p =>
      by_cases hpa : p a <;> by_cases hpb : p b <;> simp [hpa, hpb, ih, body]
    | none => simp [ih, body]

/-- C2: The derived comparator implements the §4.2 step walk: zero steps give
0; a step whose predicate is not satisfied by both arguments is skipped as a
tie; a non-zero result of a custom comparator is normalized to a unit sign and
multiplied by the direction (`direction` if `r > 0` else `-direction`); the
default comparator gives `-direction` on `key(a) < key(b)` and `direction` on
`key(a) > key(b)`; 0 when every step ties.  Stated as: the comparator derived
in the code equals the walk written from the words of the spec. -/
theorem compare_implements_spec_walk (klt : K → K → Bool) (o : Order T K)
    (a b : T) : Order.compareFn klt o a b = Order.compareSpec klt o a b := by
  by_cases hs : o.steps.length = 0
  · have : o.steps = [] := List.length_eq_zero.mp hs
    simp [Order.compareFn, Order.compareSpec, hs, this, compareSpecWalk]
  · simp only [Order.compareFn, Order.compareSpec, if_neg hs]
    exact (compareSpecWalk_eq_compareSteps klt o.steps a b).symm

theorem flipStep_flipStep (s : OrderStep T K) : flipStep (flipStep s) = s := by
  cases s with
  | mk k d c p => cases d <;> simp [flipStep, Direction.sign]

theorem reverse_steps_eq (o : Order T K) :
    (Order.reverse o).steps = o.steps.map flipStep := by
  by_cases h : o.steps.length = 0
  · simp [Order.reverse, h, List.length_eq_zero.mp h]
  · simp [Order.reverse, h]

theorem reverse_reverse_eq (o : Order T K) :
    Order.reverse (Order.reverse o) = o := by
  cases o with
  | mk steps =>
    have h1 : (Order.reverse (Order.reverse ⟨steps⟩) : Order T K).steps
        = steps.map (fun s => flipStep (flipStep s)) := by
      rw [reverse_steps_eq, reverse_steps_eq]
      simp [List.map_map, Function.comp]
    have h2 : steps.map (fun s => flipStep (flipStep s)) = steps := by
      calc steps.map (fun s => flipStep (flipStep s))
          = steps.map id := List.map_congr_left (fun s _ => flipStep_flipStep s)
        _ = steps := List.map_id steps
    cases hrev : Order.reverse (Order.reverse (⟨steps⟩ : Order T K)) with
    | mk steps2 =>
      have : steps2 = steps := by rw [← h2, ← h1, hrev]
      rw [this]

/-- C6: `Order.reverse(Order.reverse(o)).compare` agrees with `o.compare` on
every pair; `reverse` flips only the direction sign of each step while preserving
key, comparator and predicate; and reversing an empty Order yields an empty
Order. -/
theorem reverse_involution (klt : K → K → Bool) (o : Order T K) (a b : T) :
    Order.compareFn klt (Order.reverse (Order.reverse o)) a b
        = Order.compareFn klt o a b
    ∧ (Order.reverse o).steps = o.steps.map flipStep
    ∧ (∀ s : OrderStep T K, (flipStep s).key = s.key
        ∧ (flipStep s).compare = s.compare
        ∧ (flipStep s).predicate = s.predicate
        ∧ (flipStep s).direction.sign = -s.direction.sign)
    ∧ (Order.reverse (⟨[]⟩ : Order T K)).steps = [] := by
  refine ⟨by rw [reverse_reverse_eq], reverse_steps_eq o, ?_, rfl⟩
  intro s
  refine ⟨rfl, rfl, rfl, ?_⟩
  cases hd : s.direction <;> simp [flipStep, Direction.sign, hd]

/-- C7: `Order.when(pred, inner)` gives each resulting step a predicate equal
(pointwise) to the conjunction of the existing predicate of the step — taken as
true when absent — with `pred`, preserving key, direction and comparator;
consequently `Order.when(pred, Order.by(key)).compare(a, b)` is 0 whenever at
least one of `a`, `b` fails `pred`; and a stepless inner Order yields a
stepless result. -/
theorem when_guard_conjunction (klt : K → K → Bool) (pred : T → Bool)
    (inner : Order T K) :
    List.Forall₂ (fun s s' =>
        (∀ v, stepPred s' v = (stepPred s v && pred v))
        ∧ s'.key = s.key ∧ s'.direction = s.direction ∧ s'.compare = s.compare)
      inner.steps (Order.when pred inner).steps
    ∧ (∀ (key : T → K) (a b : T), pred a = false ∨ pred b = false →
        Order.compareFn klt (Order.when pred (Order.byKey key .asc none none)) a b = 0)
    ∧ (inner.steps = [] → (Order.when pred inner).steps = []) := by
  refine ⟨?_, ?_, ?_⟩
  · by_cases h : inner.steps.length = 0
    · simp [Order.when, h, List.length_eq_zero.mp h]
    · simp only [Order.when, if_neg h]
      rw [List.forall₂_map_right_iff]
      rw [List.forall₂_same]
      intro s _
      refine ⟨?_, rfl, rfl, rfl⟩
      intro v
      cases hp : s.predicate with
      | some p => simp [stepPred, hp]
      | none => simp [stepPred, hp]
  · intro key a b hab
    rcases hab with h | h <;>
      simp [Order.when, Order.byKey, Order.compareFn, compareSteps, h]
  · intro h
    simp [Order.when, h]

theorem compareSteps_lifted (klt : K → K → Bool) (outer : T → N)
    (steps : List (OrderStep N K)) (a b : T) :
    compareSteps klt
      (steps.map (fun s =>
        ({ key := fun t => s.key (outer t)
           direction := s.direction
           compare := s.compare
           predicate := match s.predicate with
             | some p => some (fun t => p (outer t))
             | none => none } : OrderStep T K))) a b
      = compareSteps klt steps (outer a) (outer b) := by
  induction steps with
  | nil => rfl
  | cons s rest ih =>
    simp only [List.map_cons, compareSteps]
    cases hp : s.predicate with
    | some p =>
      by_cases hpa : p (outer a) <;> by_cases hpb : p (outer b) <;>
        simp [hpa, hpb, ih]
    | none => simp [ih]

/-- C8: `Order.map(outer, s)` lifts each sub-step so that its key is the
sub-key composed with `outer` and its predicate (when present) is the
sub-predicate composed with `outer`; hence its comparator satisfies
`Order.map(outer, s).compare(a, b) = s.compare(outer(a), outer(b))` for all
`a`, `b`; and the instance form `o.map(outer, s)` has the own steps of `o` first
followed by the lifted sub-steps. -/
theorem map_lifts_sub_order (klt : K → K → Bool) (outer : T → N)
    (sub : Order N K) (o : Order T K) (a b : T) :
    Order.compareFn klt (Order.map outer sub) a b
        = Order.compareFn klt sub (outer a) (outer b)
    ∧ (Order.mapI o outer sub).steps = o.steps ++ (Order.map outer sub).steps
    ∧ List.Forall₂ (fun s s' =>
        s'.key = (fun t => s.key (outer t))
        ∧ s'.direction = s.direction ∧ s'.compare = s.compare
        ∧ s'.predicate = s.predicate.map (fun p => fun t => p (outer t)))
      sub.steps (Order.map outer sub).steps := by
  refine ⟨?_, ?_, ?_⟩
  · by_cases h : sub.steps.length = 0
    · simp [Order.map, Order.compareFn, h]
    · have hmap : (Order.map outer sub).steps.length ≠ 0 := by
        simp [Order.map, if_neg h, h]
      simp only [Order.compareFn, if_neg h, if_neg hmap]
      simp only [Order.map, if_neg h]
      exact compareSteps_lifted klt outer sub.steps a b
  · by_cases h : o.steps.length = 0
    · simp [Order.mapI, h, List.length_eq_zero.mp h]
    · simp [Order.mapI, h]
  · by_cases h : sub.steps.length = 0
    · simp [Order.map, h, List.length_eq_zero.mp h]
    · simp only [Order.map, if_neg h]
      rw [List.forall₂_map_right_iff, List.forall₂_same]
      intro s _
      refine ⟨rfl, rfl, rfl, ?_⟩
      cases hp : s.predicate <;> simp [hp]

theorem compareSteps_antisymm (klt : K → K → Bool)
    (hasym : ∀ x y, klt x y = true → klt y x = false)
    (steps : List (OrderStep T K))
    (hcmp : ∀ s ∈ steps, ∀ c, s.compare = some c → ∀ x y, c x y = -(c y x))
    (a b : T)
    (hpred : ∀ s ∈ steps, ∀ p, s.predicate = some p → p a = p b) :
    compareSteps klt steps a b = -(compareSteps klt steps b a) := by
  induction steps with
  | nil => simp [compareSteps]
  | cons s rest ih =>
    have ih' := ih (fun t ht c hc => hcmp t (by simp [ht]) c hc)
      (fun t ht p hp => hpred t (by simp [ht]) p hp)
    simp only [compareSteps]
    cases hp : s.predicate with
    | some p =>
      have hab : p a = p b := hpred s (by simp) p hp
      by_cases hpa : p a
      · have hpb : p b = true := by rw [← hab, hpa]
        simp only [hpa, hpb, Bool.not_true, Bool.or_false, Bool.false_or,
          Bool.or_self, Bool.false_eq_true, if_false]
        cases hc : s.compare with
        | some c =>
          have hcc : ∀ x y, c x y = -(c y x) := hcmp s (by simp) c hc
          have hr : c (s.key a) (s.key b) = -(c (s.key b) (s.key a)) := hcc _ _
          by_cases h0 : c (s.key a) (s.key b) = 0
          · have h0' : c (s.key b) (s.key a) = 0 := by omega
            simp [h0, h0', ih']
          · have h0' : c (s.key b) (s.key a) ≠ 0 := by omega
            by_cases hgt : c (s.key a) (s.key b) > 0
            · have hlt : ¬ (c (s.key b) (s.key a) > 0) := by omega
              simp [h0, h0', hgt, hlt]
            · have hlt : c (s.key b) (s.key a) > 0 := by omega
              simp [h0, h0', hgt, hlt]
        | none =>
          by_cases h1 : klt (s.key a) (s.key b)
          · have h2 : klt (s.key b) (s.key a) = false := hasym _ _ h1
            simp [h1, h2]
          · by_cases h2 : klt (s.key b) (s.key a)
            · simp [h1, h2]
            · simp [h1, h2, ih']
      · have hpb : p b = false := by
          rw [← hab]
          exact Bool.not_eq_true _ ▸ (by simpa using hpa)
        simp only [hpa, hpb, Bool.not_false, Bool.true_or, Bool.or_true,
          if_true, ih']
    | none =>
      simp only [Bool.false_eq_true, if_false]
      cases hc : s.compare with
      | some c =>
        have hcc : ∀ x y, c x y = -(c y x) := hcmp s (by simp) c hc
        have hr : c (s.key a) (s.key b) = -(c (s.key b) (s.key a)) := hcc _ _
        by_cases h0 : c (s.key a) (s.key b) = 0
        · have h0' : c (s.key b) (s.key a) = 0 := by omega
          simp [h0, h0', ih']
        · have h0' : c (s.key b) (s.key a) ≠ 0 := by omega
          by_cases hgt : c (s.key a) (s.key b) > 0
          · have hlt : ¬ (c (s.key b) (s.key a) > 0) := by omega
            simp [h0, h0', hgt, hlt]
          · have hlt : c (s.key b) (s.key a) > 0 := by omega
            simp [h0, h0', hgt, hlt]
      | none =>
        by_cases h1 : klt (s.key a) (s.key b)
        · have h2 : klt (s.key b) (s.key a) = false := hasym _ _ h1
          simp [h1, h2]
        · by_cases h2 : klt (s.key b) (s.key a)
          · simp [h1, h2]
          · simp [h1, h2, ih']

theorem compareSteps_refl (klt : K → K → Bool)
    (hirr : ∀ x, klt x x = false)
    (steps : List (OrderStep T K))
    (hcmp : ∀ s ∈ steps, ∀ c, s.compare = some c → ∀ x y, c x y = -(c y x))
    (a : T) : compareSteps klt steps a a = 0 := by
  induction steps with
  | nil => rfl
  | cons s rest ih =>
    have ih' := ih (fun t ht c hc => hcmp t (by simp [ht]) c hc)
    simp only [compareSteps]
    cases hp : s.predicate with
    | some p =>
      by_cases hpa : p a
      · simp only [hpa, Bool.not_true, Bool.or_self, Bool.false_eq_true, if_false]
        cases hc : s.compare with
        | some c =>
          have h0 : c (s.key a) (s.key a) = 0 := by
            have := hcmp s (by simp) c hc (s.key a) (s.key a)
            omega
          simp [h0, ih']
        | none => simp [hirr, ih']
      · simp [hpa, ih']
    | none =>
      simp only [Bool.false_eq_true, if_false]
      cases hc : s.compare with
      | some c =>
        have h0 : c (s.key a) (s.key a) = 0 := by
          have := hcmp s (by simp) c hc (s.key a) (s.key a)
          omega
        simp [h0, ih']
      | none => simp [hirr, ih']

/-- C5 (amended): for a fixed Order in which all custom step comparators are
antisymmetric (`c(x,y) = -c(y,x)`, as a well-behaved three-way comparator is),
over a key relation that is irreflexive and asymmetric (as the JavaScript
relational comparison is on ordinary values): `compare(a,b) = -compare(b,a)`
for every pair on which no guarding step predicate distinguishes `a` from
`b`, and `compare(a,a) = 0` for every `a`.  The unrestricted claim — covering
arbitrary user-supplied custom comparators — is refuted by
`compare_not_refl_constant_comparator`. -/
theorem compare_antisymm_of_antisymm_comparators (klt : K → K → Bool)
    (o : Order T K)
    (hirr : ∀ x, klt x x = false)
    (hasym : ∀ x y, klt x y = true → klt y x = false)
    (hcmp : ∀ s ∈ o.steps, ∀ c, s.compare = some c → ∀ x y, c x y = -(c y x)) :
    (∀ a b, (∀ s ∈ o.steps, ∀ p, s.predicate = some p → p a = p b) →
      Order.compareFn klt o a b = -(Order.compareFn klt o b a))
    ∧ (∀ a, Order.compareFn klt o a a = 0) := by
  constructor
  · intro a b hpred
    by_cases hs : o.steps.length = 0
    · simp [Order.compareFn, hs]
    · simp only [Order.compareFn, if_neg hs]
      exact compareSteps_antisymm klt hasym o.steps hcmp a b hpred
  · intro a
    by_cases hs : o.steps.length = 0
    · simp [Order.compareFn, hs]
    · simp only [Order.compareFn, if_neg hs]
      exact compareSteps_refl klt hirr o.steps hcmp a

/-- C5 counterexample: with the user-supplied custom comparator that always
answers 1, the derived comparator is not reflexive-zero: `compare(0, 0) = 1`
(and for the same Order `compare(0, 1) = 1 = compare(1, 0)`, violating
antisymmetry as well), refuting the claim for arbitrary custom comparators. -/
theorem compare_not_refl_constant_comparator :
    Order.compareFn kltI ordConstOne 0 0 ≠ 0
    ∧ Order.compareFn kltI ordConstOne 0 1
        ≠ -(Order.compareFn kltI ordConstOne 1 0) := by
  refine ⟨?_, ?_⟩ <;> decide

/-- C5 witness: the amended theorem applied to the one-step identity Order on
integers under the standard `<`. -/
theorem compare_antisymm_witness :
    Order.compareFn kltI ordIdInt 1 2 = -(Order.compareFn kltI ordIdInt 2 1)
    ∧ Order.compareFn kltI ordIdInt 1 1 = 0 := by
  have h := compare_antisymm_of_antisymm_comparators kltI ordIdInt
    (fun x => by simp [kltI])
    (fun x y h => by simp [kltI] at h ⊢; omega)
    (fun s hs c hc => by
      simp [ordIdInt, Order.byKey] at hs
      rw [hs] at hc
      simp at hc)
  exact ⟨h.1 1 2 (fun s hs p hp => by
      simp [ordIdInt, Order.byKey] at hs
      rw [hs] at hp
      simp at hp), h.2 1⟩

theorem countP_isSome_ifmap (p : T → Bool) (f : T → K) (arr : List T) :
    (arr.map (fun t => if p t then some (f t) else none)).countP Option.isSome
      = arr.countP p := by
  induction arr with
  | nil => rfl
  | cons t ts ih =>
    by_cases h : p t <;>
      simp only [List.map_cons, List.countP_cons, h, if_true, if_false,
        Option.isSome_some, Option.isSome_none, Bool.false_eq_true,
        cond_true, cond_false, ih]

theorem countP_isSome_decorate (s : OrderStep T K) (p : T → Bool)
    (hp : s.predicate = some p) (arr : List T) :
    (decorateStep s arr).keys.countP Option.isSome = arr.countP p := by
  have e1 : (decorateStep s arr).keys
      = arr.map (fun t => if p t then some (s.key t) else none) := by
    simp [decorateStep, hp]
  rw [e1, countP_isSome_ifmap p s.key arr]

theorem countP_not_add_countP (p : α → Bool) (l : List α) :
    l.countP p + l.countP (fun t => !(p t)) = l.length := by
  induction l with
  | nil => rfl
  | cons t ts ih =>
    by_cases h : p t <;> simp [List.countP_cons, h] <;> omega

/-- C3 (amended): for a single-step Order whose step carries a predicate
excluding `k` of the `n` input elements, and `n ≥ 2` (so the sort does not
short-circuit to a plain copy), `Order.sort` invokes the key function exactly
`n - k` times: once per element the predicate accepts, zero times for
excluded elements, and never inside the index comparator (which, by
construction, reads only the precomputed buffers).  For `n ≤ 1` the sort
returns a copy without decorating, so the key is invoked zero times — the
unrestricted claim fails there (`sortKeyCalls_not_n_minus_k_short_input`). -/
theorem single_step_key_call_budget (s : OrderStep T K) (p : T → Bool)
    (arr : List T) (hp : s.predicate = some p) (hlen : 2 ≤ arr.length) :
    Order.sortKeyCalls arr (⟨[s]⟩ : Order T K)
      = arr.length - arr.countP (fun t => !(p t)) := by
  have h1 : ¬ arr.length ≤ 1 := by omega
  have e : Order.sortKeyCalls arr (⟨[s]⟩ : Order T K)
      = (decorateStep s arr).keys.countP Option.isSome := by
    simp [Order.sortKeyCalls, h1]
  rw [e, countP_isSome_decorate s p hp arr]
  have := countP_not_add_countP p arr
  omega

/-- C3 counterexample: with a single-element input (`n = 1`) and a predicate
excluding no element (`k = 0`), the sort short-circuits to a copy and performs
0 key calls, not `n - k = 1` — the claim as stated fails for `n ≤ 1`. -/
theorem sortKeyCalls_not_n_minus_k_short_input :
    Order.sortKeyCalls [(5 : Int)] (⟨[stepAlways]⟩ : Order Int Int)
      ≠ [(5 : Int)].length
        - List.countP (fun t => !((fun _ => true) t)) [(5 : Int)] := by
  decide

/-- C3 witness: the amended budget at a concrete three-element input with one
excluded element: 3 - 1 = 2 key calls. -/
theorem single_step_key_call_budget_witness :
    Order.sortKeyCalls [(1 : Int), -2, 3] (⟨[stepNonneg]⟩ : Order Int Int)
      = [(1 : Int), -2, 3].length
        - List.countP (fun t => !(pNonneg t)) [(1 : Int), -2, 3] :=
  single_step_key_call_budget stepNonneg pNonneg [(1 : Int), -2, 3] rfl
    (by decide)

/-- C4: `Order.sort(arr, o)` never changes the contents or order of the array
behind the reference `arr`, and the returned reference is distinct from `arr` —
including for inputs of length ≤ 1 or zero-step Orders, in which case the
array behind the fresh reference is a shallow copy of the input. -/
theorem sort_no_mutation_fresh_ref [Inhabited T] (klt : K → K → Bool)
    (h : HeapA T) (r : Nat) (o : Order T K) (hr : r < h.arrays.length) :
    (Order.sortH klt h r o).1.read r = h.read r
    ∧ (Order.sortH klt h r o).2 ≠ r
    ∧ (((h.read r).length ≤ 1 ∨ o.steps.length = 0) →
        (Order.sortH klt h r o).1.read (Order.sortH klt h r o).2 = h.read r) := by
  refine ⟨?_, ?_, ?_⟩
  · simp only [Order.sortH, HeapA.alloc, HeapA.read]
    exact List.getD_append _ _ _ _ hr
  · simp only [Order.sortH, HeapA.alloc]
    omega
  · intro hdeg
    have hout : (Order.sortH klt h r o).1.read (Order.sortH klt h r o).2
        = Order.sortL klt (h.read r) o := by
      simp only [Order.sortH, HeapA.alloc, HeapA.read]
      rw [List.getD_append_right _ _ _ _ (le_refl _)]
      simp
    rw [hout]
    rcases hdeg with hd | hd
    · simp [Order.sortL, hd]
    · by_cases hl : (h.read r).length ≤ 1
      · simp [Order.sortL, hl]
      · simp [Order.sortL, hl, hd]

/-- C4 witness: the theorem applied to a concrete one-array heap, its only
reference, and the empty Order. -/
theorem sort_no_mutation_fresh_ref_witness :
    (Order.sortH kltI heapW 0 (⟨[]⟩ : Order Int Int)).1.read 0 = heapW.read 0
    ∧ (Order.sortH kltI heapW 0 (⟨[]⟩ : Order Int Int)).2 ≠ 0
    ∧ (((heapW.read 0).length ≤ 1 ∨ (⟨[]⟩ : Order Int Int).steps.length = 0) →
        (Order.sortH kltI heapW 0 (⟨[]⟩ : Order Int Int)).1.read
            (Order.sortH kltI heapW 0 (⟨[]⟩ : Order Int Int)).2
          = heapW.read 0) :=
  sort_no_mutation_fresh_ref kltI heapW 0 (⟨[]⟩ : Order Int Int) (by decide)

/-- C9: the standalone `number` comparator treats NaN as a single equivalence
class before all finite numbers — `number(NaN, v)` is negative for every
finite `v`, `number(v, NaN)` is positive, `number(NaN, NaN) = 0` (in
particular at `v = 5`) — and on finite arguments it orders ascending by
value: the result is negative, zero or positive exactly as `a < b`, `a = b`
or `a > b`. -/
theorem number_nan_first_and_ascending :
    (∀ v : Int, numberC .nan (.fin v) < 0 ∧ 0 < numberC (.fin v) .nan)
    ∧ numberC .nan .nan = 0
    ∧ numberC .nan (.fin 5) = -1 ∧ numberC (.fin 5) .nan = 1
    ∧ (∀ a b : Int,
        (numberC (.fin a) (.fin b) < 0 ↔ a < b)
        ∧ (numberC (.fin a) (.fin b) = 0 ↔ a = b)
        ∧ (0 < numberC (.fin a) (.fin b) ↔ b < a)) := by
  refine ⟨fun v => ⟨by simp [numberC, JSNum.isNaN], by simp [numberC, JSNum.isNaN]⟩,
    rfl, rfl, rfl, fun a b => ⟨?_, ?_, ?_⟩⟩ <;>
      simp [numberC, JSNum.isNaN, JSNum.val] <;> omega

theorem compareSteps_unit_sign (klt : K → K → Bool)
    (steps : List (OrderStep T K)) (a b : T) :
    compareSteps klt steps a b = -1 ∨ compareSteps klt steps a b = 0
      ∨ compareSteps klt steps a b = 1 := by
  induction steps with
  | nil => simp [compareSteps]
  | cons s rest ih =>
    simp only [compareSteps]
    cases hp : s.predicate with
    | some p =>
      by_cases hpa : p a <;> by_cases hpb : p b <;>
        simp only [hpa, hpb, Bool.not_true, Bool.not_false, Bool.or_true,
          Bool.true_or, Bool.or_false, Bool.false_or, Bool.or_self,
          if_true, Bool.false_eq_true, if_false]
      any_goals exact ih
      cases hc : s.compare with
      | some c =>
        by_cases hr : c (s.key a) (s.key b) = 0
        · simpa [hr] using ih
        · by_cases hgt : c (s.key a) (s.key b) > 0 <;>
            cases hd : s.direction <;> simp [hr, hgt, Direction.sign]
      | none =>
        by_cases h1 : klt (s.key a) (s.key b)
        · cases hd : s.direction <;> simp [h1, Direction.sign]
        · by_cases h2 : klt (s.key b) (s.key a)
          · cases hd : s.direction <;> simp [h1, h2, Direction.sign]
          · simpa [h1, h2] using ih
    | none =>
      simp only [Bool.false_eq_true, if_false]
      cases hc : s.compare with
      | some c =>
        by_cases hr : c (s.key a) (s.key b) = 0
        · simpa [hr] using ih
        · by_cases hgt : c (s.key a) (s.key b) > 0 <;>
            cases hd : s.direction <;> simp [hr, hgt, Direction.sign]
      | none =>
        by_cases h1 : klt (s.key a) (s.key b)
        · cases hd : s.direction <;> simp [h1, Direction.sign]
        · by_cases h2 : klt (s.key b) (s.key a)
          · cases hd : s.direction <;> simp [h1, h2, Direction.sign]
          · simpa [h1, h2] using ih

theorem idxCompare_unit_sign (klt : K → K → Bool)
    (decs : List (DecStep K)) (ia ib : Nat) :
    idxCompare klt decs ia ib = -1 ∨ idxCompare klt decs ia ib = 0
      ∨ idxCompare klt decs ia ib = 1 := by
  induction decs with
  | nil => simp [idxCompare]
  | cons d ds ih =>
    simp only [idxCompare]
    cases hm : d.matched with
    | some m =>
      by_cases hma : m.getD ia false <;> by_cases hmb : m.getD ib false <;>
        simp only [hma, hmb, Bool.not_true, Bool.not_false, Bool.or_true,
          Bool.true_or, Bool.or_false, Bool.false_or, Bool.or_self,
          if_true, Bool.false_eq_true, if_false]
      any_goals exact ih
      cases hka : d.keys.getD ia none with
      | none => exact ih
      | some x =>
        cases hkb : d.keys.getD ib none with
        | none => exact ih
        | some y =>
          cases hc : d.cmp with
          | some c =>
            by_cases hr : c x y = 0
            · simpa [hr] using ih
            · by_cases hgt : c x y > 0 <;>
                cases hd : d.dir <;> simp [hr, hgt, Direction.sign]
          | none =>
            by_cases h1 : klt x y
            · cases hd : d.dir <;> simp [h1, Direction.sign]
            · by_cases h2 : klt y x
              · cases hd : d.dir <;> simp [h1, h2, Direction.sign]
              · simpa [h1, h2] using ih
    | none =>
      simp only [Bool.false_eq_true, if_false]
      cases hka : d.keys.getD ia none with
      | none => exact ih
      | some x =>
        cases hkb : d.keys.getD ib none with
        | none => exact ih
        | some y =>
          cases hc : d.cmp with
          | some c =>
            by_cases hr : c x y = 0
            · simpa [hr] using ih
            · by_cases hgt : c x y > 0 <;>
                cases hd : d.dir <;> simp [hr, hgt, Direction.sign]
          | none =>
            by_cases h1 : klt x y
            · cases hd : d.dir <;> simp [h1, Direction.sign]
            · by_cases h2 : klt y x
              · cases hd : d.dir <;> simp [h1, h2, Direction.sign]
              · simpa [h1, h2] using ih

/-- C10 (implicit): for every Order, any pair of inputs and arbitrary custom
step comparators, the derived comparator `o.compare` — and the internal index
comparator of `Order.sort` — returns exactly -1, 0, or 1; whereas the
standalone combinators `by` and `order` pass the raw delegate-comparator
magnitude through (witnessed by delegates answering 5 and 7). -/
theorem compare_returns_unit_sign :
    (∀ (T K : Type) (klt : K → K → Bool) (o : Order T K) (a b : T),
      Order.compareFn klt o a b = -1 ∨ Order.compareFn klt o a b = 0
        ∨ Order.compareFn klt o a b = 1)
    ∧ (∀ (K : Type) (klt : K → K → Bool) (decs : List (DecStep K)) (ia ib : Nat),
      idxCompare klt decs ia ib = -1 ∨ idxCompare klt decs ia ib = 0
        ∨ idxCompare klt decs ia ib = 1)
    ∧ byC kltI (id : Int → Int) .asc (some (fun _ _ => 5)) none 0 0 = 5
    ∧ orderC [fun _ _ => (7 : Int)] 0 0 = 7 := by
  refine ⟨?_, ?_, rfl, rfl⟩
  · intro T K klt o a b
    by_cases hs : o.steps.length = 0
    · simp [Order.compareFn, hs]
    · simp only [Order.compareFn, if_neg hs]
      exact compareSteps_unit_sign klt o.steps a b
  · intro K klt decs ia ib
    exact idxCompare_unit_sign klt decs ia ib

/-- C7 witness: the guard-conjunction theorem applied at a concrete guarded
pair with a failing left element. -/
theorem when_guard_conjunction_witness :
    Order.compareFn kltI
        (Order.when pNonneg (Order.byKey (id : Int → Int) .asc none none))
        (-1) 5 = 0 :=
  (when_guard_conjunction kltI pNonneg
      (Order.byKey (id : Int → Int) .asc none none)).2.1 id (-1) 5
    (Or.inl (by decide))
